import Mathlib

/-!
Verification of the chunk-splitting and sequential-synthesis logic of the
TTS service (`src/services/tts_service/xtts_integration.py`, function
`synthesize_with_xtts_streaming`).

Text is modelled as `List Char` (one element per Python character).
Whitespace is modelled as ASCII whitespace, matching the characters of the
Python regex class `[\s\n]` and of `str.strip()` on ASCII input.
-/

namespace EzraTTS

/-- Sentence-terminal punctuation, from the regex class `[.!?]` and from the
membership test `any(p in part for p in '.!?')` in the source. -/
def isTerm (c : Char) : Bool :=
  c = '.' || c = '!' || c = '?'

/-- Whitespace, modelling Python's `\s` / `str.strip()` (ASCII subset). -/
def isSpace (c : Char) : Bool :=
  c = ' ' || c = '\t' || c = '\n' || c = '\r' || c = '\x0b' || c = '\x0c'

/-- `l.any isTerm`, modelling `any(p in part for p in '.!?')`. -/
def hasTerm (l : List Char) : Bool := l.any isTerm

/-- Drop trailing whitespace (the right half of Python `str.strip()`). -/
def dropTrail (l : List Char) : List Char :=
  (l.reverse.dropWhile isSpace).reverse

/-- Python `str.strip()`: drop trailing and leading whitespace. -/
def stripL (l : List Char) : List Char :=
  (dropTrail l).dropWhile isSpace

/-- Characters that are not whitespace, used to state reconstruction of the
input modulo whitespace normalization. -/
def noWs (l : List Char) : List Char :=
  l.filter (fun c => !isSpace c)

/-- Scanner mode for the regex `([.!?]+[\s\n]*)`: inside ordinary text,
inside the `[.!?]+` run, or inside the trailing `[\s\n]*` run. -/
inductive ScanMode
  | txt
  | term
  | ws

/-- One-pass scanner implementing `re.split(r'([.!?]+[\s\n]*)', text)`
(source line 323).  `acc` is the current part, reversed.  The output
alternates text parts and separator parts, beginning and ending with a
(possibly empty) text part, exactly as `re.split` with a capturing group. -/
def reSplitGo : List Char → ScanMode → List Char → List (List Char)
  | [], .txt, acc => [acc.reverse]
  | [], .term, acc => [acc.reverse, []]
  | [], .ws, acc => [acc.reverse, []]
  | c :: cs, .txt, acc =>
      if isTerm c then acc.reverse :: reSplitGo cs .term [c]
      else reSplitGo cs .txt (c :: acc)
  | c :: cs, .term, acc =>
      if isTerm c then reSplitGo cs .term (c :: acc)
      else if isSpace c then reSplitGo cs .ws (c :: acc)
      else acc.reverse :: reSplitGo cs .txt [c]
  | c :: cs, .ws, acc =>
      if isSpace c then reSplitGo cs .ws (c :: acc)
      else if isTerm c then acc.reverse :: [] :: reSplitGo cs .term [c]
      else acc.reverse :: reSplitGo cs .txt [c]

/-- `re.split(r'([.!?]+[\s\n]*)', text)` (source line 323). -/
def reSplit (text : List Char) : List (List Char) :=
  reSplitGo text .txt []

/-- One iteration of the recombination loop (source lines 326-333):
`current_chunk += part`, then
`if (part.strip() and any(p in part for p in '.!?')) or len(current_chunk) >= chunk_size`,
then `if current_chunk.strip(): text_chunks.append(current_chunk.strip()); current_chunk = ""`.
The state is `(text_chunks, current_chunk)`. -/
def splitStep (chunkSize : Nat) (st : List (List Char) × List Char)
    (part : List Char) : List (List Char) × List Char :=
  if (stripL part ≠ [] ∧ hasTerm part = true) ∨ chunkSize ≤ (st.2 ++ part).length then
    if stripL (st.2 ++ part) ≠ [] then (st.1 ++ [stripL (st.2 ++ part)], ([] : List Char))
    else (st.1, st.2 ++ part)
  else (st.1, st.2 ++ part)

/-- The recombination loop over all regex parts (source lines 326-333),
starting from the empty chunk list and the empty buffer. -/
def splitCore (text : List Char) (chunkSize : Nat) :
    List (List Char) × List Char :=
  (reSplit text).foldl (splitStep chunkSize) ([], [])

/-- The trailing-buffer append after the loop (source lines 336-337):
`if current_chunk.strip(): text_chunks.append(current_chunk.strip())`. -/
def withTrailing (st : List (List Char) × List Char) : List (List Char) :=
  if stripL st.2 ≠ [] then st.1 ++ [stripL st.2] else st.1

/-- The whole chunk splitter (source lines 323-341): regex split, the
recombination loop, the trailing-buffer append, and the whole-text
fallback (`if not text_chunks: text_chunks = [text]`, lines 339-341). -/
def split (text : List Char) (chunkSize : Nat) : List (List Char) :=
  if withTrailing (splitCore text chunkSize) = [] then [text]
  else withTrailing (splitCore text chunkSize)

/-- One iteration of the synthesis driver loop (source lines 346-374):
`if not chunk_text.strip(): continue`, then `try: ... yield chunk_audio
except: logger.error(...); continue`.  The synthesis primitive is modelled
as `synth : List Char → Option α` (`none` = the call raised).  The state is
(audio chunks yielded so far, number of failure events logged). -/
def driveStep {α : Type} (synth : List Char → Option α)
    (st : List α × Nat) (c : List Char) : List α × Nat :=
  if stripL c = [] then st
  else
    match synth c with
    | some a => (st.1 ++ [a], st.2)
    | none => (st.1, st.2 + 1)

/-- The sequential synthesis driver over a chunk sequence (source lines
346-374), returning the yielded audio chunks in order and the number of
logged failure events. -/
def drive {α : Type} (synth : List Char → Option α)
    (chunks : List (List Char)) : List α × Nat :=
  chunks.foldl (driveStep synth) ([], 0)

/-! ## Basic lemmas about whitespace stripping -/

theorem term_not_space {c : Char} (h : isTerm c = true) : isSpace c = false := by
  simp only [isTerm, Bool.or_eq_true, decide_eq_true_eq] at h
  rcases h with (h | h) | h <;> subst h <;> decide

theorem noWs_append (a b : List Char) : noWs (a ++ b) = noWs a ++ noWs b := by
  simp [noWs, List.filter_append]

theorem noWs_dropWhile_space (l : List Char) :
    noWs (l.dropWhile isSpace) = noWs l := by
  induction l with
  | nil => rfl
  | cons a l ih =>
    by_cases h : isSpace a = true
    · simp [noWs, List.dropWhile_cons, h] at ih ⊢
      exact ih
    · simp [List.dropWhile_cons, h]

theorem noWs_cons (a : Char) (l : List Char) :
    noWs (a :: l) = if isSpace a = true then noWs l else a :: noWs l := by
  by_cases h : isSpace a = true <;> simp [noWs, List.filter_cons, h]

theorem noWs_reverse (l : List Char) : noWs l.reverse = (noWs l).reverse := by
  induction l with
  | nil => rfl
  | cons a l ih =>
    rw [List.reverse_cons, noWs_append]
    by_cases h : isSpace a = true
    · have ha : noWs [a] = [] := by simp [noWs, h]
      rw [ha, List.append_nil, ih, noWs_cons, if_pos h]
    · have ha : noWs [a] = [a] := by simp [noWs, h]
      rw [ha, ih, noWs_cons, if_neg h, List.reverse_cons]

theorem noWs_dropTrail (l : List Char) : noWs (dropTrail l) = noWs l := by
  have h1 := noWs_reverse (l.reverse.dropWhile isSpace)
  have h2 := noWs_dropWhile_space l.reverse
  have h3 := noWs_reverse l
  rw [dropTrail, h1, h2, h3, List.reverse_reverse]

theorem noWs_stripL (l : List Char) : noWs (stripL l) = noWs l := by
  rw [stripL, noWs_dropWhile_space, noWs_dropTrail]

theorem dropWhile_eq_nil_of_all {p : Char → Bool} {l : List Char}
    (h : ∀ c ∈ l, p c = true) : l.dropWhile p = [] := by
  induction l with
  | nil => rfl
  | cons a l ih =>
    have ha : p a = true := h a (List.mem_cons_self _ _)
    rw [List.dropWhile_cons, if_pos ha]
    exact ih fun c hc => h c (List.mem_cons_of_mem _ hc)

theorem noWs_eq_nil_iff {l : List Char} :
    noWs l = [] ↔ ∀ c ∈ l, isSpace c = true := by
  constructor
  · intro h c hc
    by_contra hne
    have : c ∈ noWs l := by
      simp [noWs, List.mem_filter, hc]
      simpa using hne
    simp [h] at this
  · intro h
    simp only [noWs, List.filter_eq_nil_iff]
    intro c hc
    simp [h c hc]

theorem stripL_eq_nil_iff {l : List Char} : stripL l = [] ↔ noWs l = [] := by
  constructor
  · intro h
    have := noWs_stripL l
    rw [h] at this
    exact this.symm
  · intro h
    have hall : ∀ c ∈ l, isSpace c = true := noWs_eq_nil_iff.mp h
    have hrev : ∀ c ∈ l.reverse, isSpace c = true := by
      intro c hc; exact hall c (List.mem_reverse.mp hc)
    rw [stripL, dropTrail, dropWhile_eq_nil_of_all hrev]
    rfl

theorem noWs_ne_nil_of_hasTerm {l : List Char} (h : hasTerm l = true) :
    noWs l ≠ [] := by
  simp only [hasTerm, List.any_eq_true] at h
  obtain ⟨c, hc, hterm⟩ := h
  intro hnil
  have := noWs_eq_nil_iff.mp hnil c hc
  rw [term_not_space hterm] at this
  exact Bool.false_ne_true this

theorem stripL_ne_nil_of_hasTerm {l : List Char} (h : hasTerm l = true) :
    stripL l ≠ [] := by
  intro hnil
  exact noWs_ne_nil_of_hasTerm h (stripL_eq_nil_iff.mp hnil)

/-! ## The scanner yields back the input text -/

theorem reSplitGo_flatten (cs : List Char) :
    ∀ (mode : ScanMode) (acc : List Char),
      (reSplitGo cs mode acc).flatten = acc.reverse ++ cs := by
  induction cs with
  | nil => intro mode acc; cases mode <;> simp [reSplitGo]
  | cons c cs ih =>
    intro mode acc
    cases mode with
    | txt =>
      by_cases h : isTerm c = true <;>
        simp [reSplitGo, h, ih, List.append_assoc]
    | term =>
      by_cases h : isTerm c = true
      · simp [reSplitGo, h, ih, List.append_assoc]
      · by_cases h2 : isSpace c = true <;>
          simp [reSplitGo, h, h2, ih, List.append_assoc]
    | ws =>
      by_cases h : isSpace c = true
      · simp [reSplitGo, h, ih, List.append_assoc]
      · by_cases h2 : isTerm c = true <;>
          simp [reSplitGo, h, h2, ih, List.append_assoc]

theorem reSplit_flatten (text : List Char) : (reSplit text).flatten = text := by
  simp [reSplit, reSplitGo_flatten]

/-! ## Frame lemmas: the loop state threads through the fold -/

theorem noWs_nil : noWs [] = [] := rfl

theorem splitStep_fst (n : Nat) (st : List (List Char) × List Char)
    (part : List Char) :
    (splitStep n st part).1 = st.1 ++ (splitStep n ([], st.2) part).1 := by
  simp only [splitStep]
  by_cases h1 : (stripL part ≠ [] ∧ hasTerm part = true) ∨ n ≤ (st.2 ++ part).length
  · rw [if_pos h1, if_pos h1]
    by_cases h2 : stripL (st.2 ++ part) ≠ []
    · rw [if_pos h2, if_pos h2]; simp
    · rw [if_neg h2, if_neg h2]; simp
  · rw [if_neg h1, if_neg h1]; simp

theorem splitStep_snd (n : Nat) (st : List (List Char) × List Char)
    (part : List Char) :
    (splitStep n st part).2 = (splitStep n ([], st.2) part).2 := by
  simp only [splitStep]
  by_cases h1 : (stripL part ≠ [] ∧ hasTerm part = true) ∨ n ≤ (st.2 ++ part).length
  · rw [if_pos h1, if_pos h1]
    by_cases h2 : stripL (st.2 ++ part) ≠ []
    · rw [if_pos h2, if_pos h2]
    · rw [if_neg h2, if_neg h2]
  · rw [if_neg h1, if_neg h1]

theorem foldl_splitStep_frame (n : Nat) (parts : List (List Char)) :
    ∀ st : List (List Char) × List Char,
      parts.foldl (splitStep n) st =
        (st.1 ++ (parts.foldl (splitStep n) ([], st.2)).1,
         (parts.foldl (splitStep n) ([], st.2)).2) := by
  induction parts with
  | nil => intro st; simp
  | cons p parts ih =>
    intro st
    rw [List.foldl_cons, List.foldl_cons, ih (splitStep n st p),
      ih (splitStep n ([], st.2) p), splitStep_fst, splitStep_snd]
    simp [List.append_assoc]

/-- Conservation of non-whitespace characters through the recombination
loop: what has been emitted plus what is still buffered is exactly what has
been consumed, up to whitespace. -/
theorem foldl_splitStep_noWs (n : Nat) (parts : List (List Char)) :
    ∀ st : List (List Char) × List Char,
      noWs (parts.foldl (splitStep n) st).1.flatten ++
          noWs (parts.foldl (splitStep n) st).2 =
        noWs st.1.flatten ++ noWs st.2 ++ noWs parts.flatten := by
  induction parts with
  | nil => intro st; simp [noWs_nil]
  | cons p parts ih =>
    intro st
    rw [List.foldl_cons, ih (splitStep n st p)]
    have hstep : noWs (splitStep n st p).1.flatten ++ noWs (splitStep n st p).2
        = noWs st.1.flatten ++ (noWs st.2 ++ noWs p) := by
      simp only [splitStep]
      by_cases h1 : (stripL p ≠ [] ∧ hasTerm p = true) ∨ n ≤ (st.2 ++ p).length
      · rw [if_pos h1]
        by_cases h2 : stripL (st.2 ++ p) ≠ []
        · rw [if_pos h2]
          simp [List.flatten_append, noWs_append, noWs_stripL, noWs_nil,
            List.append_assoc]
        · rw [if_neg h2]
          simp [noWs_append, List.append_assoc]
      · rw [if_neg h1]
        simp [noWs_append, List.append_assoc]
    rw [hstep]
    simp [noWs_append, List.append_assoc]

/-- All chunks ever emitted by the loop have survived a
`current_chunk.strip()` truthiness test, hence contain a non-whitespace
character. -/
theorem foldl_splitStep_mem (n : Nat) (parts : List (List Char)) :
    ∀ st : List (List Char) × List Char, (∀ c ∈ st.1, stripL c ≠ []) →
      ∀ c ∈ (parts.foldl (splitStep n) st).1, stripL c ≠ [] := by
  induction parts with
  | nil => intro st h; simpa using h
  | cons p parts ih =>
    intro st h
    rw [List.foldl_cons]
    apply ih
    simp only [splitStep]
    by_cases h1 : (stripL p ≠ [] ∧ hasTerm p = true) ∨ n ≤ (st.2 ++ p).length
    · rw [if_pos h1]
      by_cases h2 : stripL (st.2 ++ p) ≠ []
      · rw [if_pos h2]
        intro c hc
        rcases List.mem_append.mp hc with hc | hc
        · exact h c hc
        · rw [List.mem_singleton.mp hc]
          intro hnil
          apply h2
          rw [stripL_eq_nil_iff, noWs_stripL] at hnil
          exact stripL_eq_nil_iff.mpr hnil
      · rw [if_neg h2]
        exact h
    · rw [if_neg h1]
      exact h

/-! ## Global consequences for `split` -/

theorem split_ne_nil (text : List Char) (n : Nat) : split text n ≠ [] := by
  unfold split
  by_cases h : withTrailing (splitCore text n) = []
  · rw [if_pos h]; simp
  · rw [if_neg h]; exact h

theorem withTrailing_noWs (st : List (List Char) × List Char) :
    noWs (withTrailing st).flatten = noWs st.1.flatten ++ noWs st.2 := by
  unfold withTrailing
  by_cases h : stripL st.2 ≠ []
  · rw [if_pos h]
    simp [List.flatten_append, noWs_append, noWs_stripL]
  · rw [if_neg h]
    have : noWs st.2 = [] := by
      rw [not_not] at h
      exact stripL_eq_nil_iff.mp h
    simp [this]

/-- The chunks returned by `split` concatenate, in order, to the input text
up to whitespace normalization: no non-whitespace character is dropped or
duplicated. -/
theorem split_noWs (text : List Char) (n : Nat) :
    noWs (split text n).flatten = noWs text := by
  have hcore : noWs (splitCore text n).1.flatten ++ noWs (splitCore text n).2
      = noWs text := by
    have h := foldl_splitStep_noWs n (reSplit text) ([], [])
    simpa [splitCore, noWs_nil, reSplit_flatten] using h
  unfold split
  by_cases h : withTrailing (splitCore text n) = []
  · rw [if_pos h]
    have h0 : noWs (withTrailing (splitCore text n)).flatten = [] := by
      rw [h]; rfl
    rw [withTrailing_noWs] at h0
    simp
  · rw [if_neg h, withTrailing_noWs, hcore]

/-- Every chunk of `split text n` contains a non-whitespace character,
provided the input itself does. -/
theorem split_mem_strip (text : List Char) (n : Nat) (h : stripL text ≠ []) :
    ∀ c ∈ split text n, stripL c ≠ [] := by
  intro c hc
  unfold split at hc
  by_cases hfb : withTrailing (splitCore text n) = []
  · rw [if_pos hfb] at hc
    rw [List.mem_singleton.mp hc]
    exact h
  · rw [if_neg hfb] at hc
    unfold withTrailing at hc
    by_cases ht : stripL (splitCore text n).2 ≠ []
    · rw [if_pos ht] at hc
      rcases List.mem_append.mp hc with hc | hc
      · have := foldl_splitStep_mem n (reSplit text) ([], []) (by simp) c
        exact this (by simpa [splitCore] using hc)
      · rw [List.mem_singleton.mp hc]
        intro hnil
        apply ht
        rw [stripL_eq_nil_iff, noWs_stripL] at hnil
        exact stripL_eq_nil_iff.mpr hnil
    · rw [if_neg ht] at hc
      have := foldl_splitStep_mem n (reSplit text) ([], []) (by simp) c
      exact this (by simpa [splitCore] using hc)

/-! ## Structure of the scanner output: alternating text and separator parts -/

/-- A text part of the regex split: contains no sentence terminator. -/
def IsTxt (p : List Char) : Prop := ∀ c ∈ p, isTerm c = false

/-- A separator part of the regex split: a non-empty run of sentence
terminators followed by a run of whitespace (the capture `[.!?]+[\s\n]*`). -/
def IsSep (p : List Char) : Prop :=
  ∃ ts ws, p = ts ++ ws ∧ ts ≠ [] ∧ (∀ c ∈ ts, isTerm c = true) ∧
    (∀ c ∈ ws, isSpace c = true)

/-- The shape of `re.split` output with one capturing group: alternating
text and separator parts, beginning and ending with a text part. -/
inductive PartsOK : List (List Char) → Prop
  | single (t : List Char) : IsTxt t → PartsOK [t]
  | pair (t s : List Char) (rest : List (List Char)) :
      IsTxt t → IsSep s → PartsOK rest → PartsOK (t :: s :: rest)

/-- Scanner loop invariant on the reversed accumulator, per mode. -/
def ModeInv : ScanMode → List Char → Prop
  | .txt, acc => ∀ c ∈ acc, isTerm c = false
  | .term, acc => acc ≠ [] ∧ ∀ c ∈ acc, isTerm c = true
  | .ws, acc => ∃ w t, acc = w ++ t ∧ t ≠ [] ∧ (∀ c ∈ t, isTerm c = true) ∧
      (∀ c ∈ w, isSpace c = true)

/-- Scanner output shape, per mode: in text mode a full alternation, in
separator modes a separator part followed by a full alternation. -/
def ModeOut : ScanMode → List (List Char) → Prop
  | .txt, l => PartsOK l
  | .term, l => ∃ s rest, l = s :: rest ∧ IsSep s ∧ PartsOK rest
  | .ws, l => ∃ s rest, l = s :: rest ∧ IsSep s ∧ PartsOK rest

theorem isSep_of_term_rev {acc : List Char} (h1 : acc ≠ [])
    (h2 : ∀ c ∈ acc, isTerm c = true) : IsSep acc.reverse := by
  refine ⟨acc.reverse, [], (List.append_nil _).symm, ?_, ?_, by simp⟩
  · simpa using h1
  · intro c hc; exact h2 c (List.mem_reverse.mp hc)

theorem isSep_of_ws_inv {acc : List Char}
    (h : ∃ w t, acc = w ++ t ∧ t ≠ [] ∧ (∀ c ∈ t, isTerm c = true) ∧
      (∀ c ∈ w, isSpace c = true)) : IsSep acc.reverse := by
  obtain ⟨w, t, rfl, ht, hterm, hws⟩ := h
  refine ⟨t.reverse, w.reverse, by simp [List.reverse_append], ?_, ?_, ?_⟩
  · simpa using ht
  · intro c hc; exact hterm c (List.mem_reverse.mp hc)
  · intro c hc; exact hws c (List.mem_reverse.mp hc)

theorem reSplitGo_ok (cs : List Char) :
    ∀ (mode : ScanMode) (acc : List Char),
      ModeInv mode acc → ModeOut mode (reSplitGo cs mode acc) := by
  induction cs with
  | nil =>
    intro mode acc hinv
    cases mode with
    | txt =>
      show PartsOK [acc.reverse]
      exact PartsOK.single _ fun c hc => hinv c (List.mem_reverse.mp hc)
    | term =>
      refine ⟨acc.reverse, [[]], rfl, isSep_of_term_rev hinv.1 hinv.2, ?_⟩
      exact PartsOK.single [] fun c hc => absurd hc (List.not_mem_nil c)
    | ws =>
      refine ⟨acc.reverse, [[]], rfl, isSep_of_ws_inv hinv, ?_⟩
      exact PartsOK.single [] fun c hc => absurd hc (List.not_mem_nil c)
  | cons c cs ih =>
    intro mode acc hinv
    cases mode with
    | txt =>
      by_cases hterm : isTerm c = true
      · have hgo : reSplitGo (c :: cs) ScanMode.txt acc
            = acc.reverse :: reSplitGo cs ScanMode.term [c] := by
          simp [reSplitGo, hterm]
        rw [show ModeOut ScanMode.txt (reSplitGo (c :: cs) ScanMode.txt acc)
          = PartsOK (reSplitGo (c :: cs) ScanMode.txt acc) from rfl, hgo]
        obtain ⟨s, rest, heq, hsep, hok⟩ :=
          ih ScanMode.term [c] ⟨by simp, by simpa using hterm⟩
        rw [heq]
        exact PartsOK.pair _ _ _ (fun x hx => hinv x (List.mem_reverse.mp hx))
          hsep hok
      · have hgo : reSplitGo (c :: cs) ScanMode.txt acc
            = reSplitGo cs ScanMode.txt (c :: acc) := by
          simp [reSplitGo, hterm]
        rw [show ModeOut ScanMode.txt (reSplitGo (c :: cs) ScanMode.txt acc)
          = PartsOK (reSplitGo (c :: cs) ScanMode.txt acc) from rfl, hgo]
        refine ih ScanMode.txt (c :: acc) ?_
        intro x hx
        rcases List.mem_cons.mp hx with rfl | hx
        · simpa using hterm
        · exact hinv x hx
    | term =>
      by_cases h1 : isTerm c = true
      · have hgo : reSplitGo (c :: cs) ScanMode.term acc
            = reSplitGo cs ScanMode.term (c :: acc) := by
          simp [reSplitGo, h1]
        rw [show ModeOut ScanMode.term (reSplitGo (c :: cs) ScanMode.term acc)
          = ModeOut ScanMode.term (reSplitGo (c :: cs) ScanMode.term acc) from rfl,
          hgo]
        refine ih ScanMode.term (c :: acc) ⟨by simp, ?_⟩
        intro x hx
        rcases List.mem_cons.mp hx with rfl | hx
        · exact h1
        · exact hinv.2 x hx
      · by_cases h2 : isSpace c = true
        · have hgo : reSplitGo (c :: cs) ScanMode.term acc
              = reSplitGo cs ScanMode.ws (c :: acc) := by
            simp [reSplitGo, h1, h2]
          rw [hgo]
          refine ih ScanMode.ws (c :: acc) ⟨[c], acc, rfl, hinv.1, hinv.2, ?_⟩
          intro x hx
          rw [List.mem_singleton.mp hx]
          exact h2
        · have hgo : reSplitGo (c :: cs) ScanMode.term acc
              = acc.reverse :: reSplitGo cs ScanMode.txt [c] := by
            simp [reSplitGo, h1, h2]
          rw [hgo]
          refine ⟨acc.reverse, reSplitGo cs ScanMode.txt [c], rfl,
            isSep_of_term_rev hinv.1 hinv.2, ?_⟩
          refine ih ScanMode.txt [c] ?_
          intro x hx
          rw [List.mem_singleton.mp hx]
          simpa using h1
    | ws =>
      by_cases h1 : isSpace c = true
      · have hgo : reSplitGo (c :: cs) ScanMode.ws acc
            = reSplitGo cs ScanMode.ws (c :: acc) := by
          simp [reSplitGo, h1]
        rw [hgo]
        obtain ⟨w, t, heq, ht, hterm2, hws2⟩ := hinv
        refine ih ScanMode.ws (c :: acc) ⟨c :: w, t, by rw [heq]; rfl, ht, hterm2, ?_⟩
        intro x hx
        rcases List.mem_cons.mp hx with rfl | hx
        · exact h1
        · exact hws2 x hx
      · by_cases h2 : isTerm c = true
        · have hgo : reSplitGo (c :: cs) ScanMode.ws acc
              = acc.reverse :: [] :: reSplitGo cs ScanMode.term [c] := by
            simp [reSplitGo, h1, h2]
          rw [hgo]
          refine ⟨acc.reverse, [] :: reSplitGo cs ScanMode.term [c], rfl,
            isSep_of_ws_inv hinv, ?_⟩
          obtain ⟨s, rest, heq, hsep, hok⟩ :=
            ih ScanMode.term [c] ⟨by simp, by
              intro x hx
              rw [List.mem_singleton.mp hx]
              exact h2⟩
          rw [heq]
          exact PartsOK.pair [] s rest (fun x hx => absurd hx (List.not_mem_nil x))
            hsep hok
        · have hgo : reSplitGo (c :: cs) ScanMode.ws acc
              = acc.reverse :: reSplitGo cs ScanMode.txt [c] := by
            simp [reSplitGo, h1, h2]
          rw [hgo]
          refine ⟨acc.reverse, reSplitGo cs ScanMode.txt [c], rfl,
            isSep_of_ws_inv hinv, ?_⟩
          refine ih ScanMode.txt [c] ?_
          intro x hx
          rw [List.mem_singleton.mp hx]
          simpa using h2

theorem partsOK_reSplit (text : List Char) : PartsOK (reSplit text) := by
  have h := reSplitGo_ok text ScanMode.txt []
    (fun c hc => absurd hc (List.not_mem_nil c))
  exact h

/-! ## Stripping a separator-terminated buffer leaves a terminator at the end -/

theorem dropWhile_append_of_all {p : Char → Bool} {a : List Char}
    (b : List Char) (h : ∀ c ∈ a, p c = true) :
    (a ++ b).dropWhile p = b.dropWhile p := by
  induction a with
  | nil => rfl
  | cons x a ih =>
    rw [List.cons_append, List.dropWhile_cons, if_pos (h x (List.mem_cons_self _ _))]
    exact ih fun c hc => h c (List.mem_cons_of_mem _ hc)

theorem stripL_append_spaces {ws : List Char} (y : List Char)
    (h : ∀ c ∈ ws, isSpace c = true) : stripL (y ++ ws) = stripL y := by
  unfold stripL dropTrail
  rw [List.reverse_append,
    dropWhile_append_of_all y.reverse fun c hc => h c (List.mem_reverse.mp hc)]

theorem getLast?_cons_of_ne {α : Type} {a : α} {l : List α} (h : l ≠ []) :
    (a :: l).getLast? = l.getLast? := by
  cases l with
  | nil => exact absurd rfl h
  | cons b m => exact List.getLast?_cons_cons

theorem getLast?_append_right {α : Type} (l₁ : List α) {l₂ : List α}
    (h : l₂ ≠ []) : (l₁ ++ l₂).getLast? = l₂.getLast? := by
  induction l₁ with
  | nil => rfl
  | cons a l₁ ih =>
    have hne : l₁ ++ l₂ ≠ [] := fun hh => h (List.append_eq_nil.mp hh).2
    rw [List.cons_append, getLast?_cons_of_ne hne, ih]

theorem getLast?_mem_of_ne_nil {α : Type} (l : List α) (h : l ≠ []) :
    ∃ a, l.getLast? = some a ∧ a ∈ l := by
  induction l with
  | nil => exact absurd rfl h
  | cons a l ih =>
    cases l with
    | nil => exact ⟨a, by simp, List.mem_singleton.mpr rfl⟩
    | cons b m =>
      obtain ⟨x, hx, hmem⟩ := ih (List.cons_ne_nil _ _)
      exact ⟨x, by rw [List.getLast?_cons_cons]; exact hx,
        List.mem_cons_of_mem _ hmem⟩

theorem getLast?_dropWhile_space {l : List Char} {ch : Char}
    (h : l.getLast? = some ch) (hch : isSpace ch = false) :
    (l.dropWhile isSpace).getLast? = some ch := by
  induction l with
  | nil => simp at h
  | cons a l ih =>
    cases l with
    | nil =>
      have ha : a = ch := by simpa using h
      subst ha
      rw [List.dropWhile_cons, if_neg (by simp [hch])]
      exact h
    | cons b m =>
      rw [List.getLast?_cons_cons] at h
      rw [List.dropWhile_cons]
      by_cases ha : isSpace a = true
      · rw [if_pos ha]; exact ih h
      · rw [if_neg ha, List.getLast?_cons_cons]; exact h

theorem dropTrail_of_last_not_space {l : List Char} {ch : Char}
    (h : l.getLast? = some ch) (hch : isSpace ch = false) : dropTrail l = l := by
  unfold dropTrail
  cases hr : l.reverse with
  | nil =>
    have hl : l = [] := by
      rw [← List.reverse_reverse l, hr]
      rfl
    subst hl; simp at h
  | cons a r =>
    have ha : a = ch := by
      have h2 : l.getLast? = some a := by
        rw [← List.reverse_reverse l, hr, List.getLast?_reverse]
        rfl
      rw [h] at h2
      exact (Option.some.inj h2).symm
    rw [List.dropWhile_cons, if_neg (by simp [ha, hch]), ← hr,
      List.reverse_reverse]

theorem stripL_getLast {l : List Char} {ch : Char}
    (h : l.getLast? = some ch) (hch : isSpace ch = false) :
    (stripL l).getLast? = some ch := by
  unfold stripL
  rw [dropTrail_of_last_not_space h hch]
  exact getLast?_dropWhile_space h hch

/-- Stripping any buffer that ends with a separator part leaves a sentence
terminator as the final character. -/
theorem strip_append_sep_last {s : List Char} (hsep : IsSep s)
    (x : List Char) :
    ∃ ch, (stripL (x ++ s)).getLast? = some ch ∧ isTerm ch = true := by
  obtain ⟨ts, ws, rfl, hts, hterm, hws⟩ := hsep
  obtain ⟨ch, hch, hmem⟩ := getLast?_mem_of_ne_nil ts hts
  have hchterm := hterm ch hmem
  have hchsp := term_not_space hchterm
  rw [show x ++ (ts ++ ws) = (x ++ ts) ++ ws from (List.append_assoc _ _ _).symm,
    stripL_append_spaces _ hws]
  have h2 : (x ++ ts).getLast? = some ch := by
    rw [getLast?_append_right _ hts]; exact hch
  exact ⟨ch, stripL_getLast h2 hchsp, hchterm⟩

/-! ## Closed form of the loop over an alternation of parts -/

/-- What the recombination loop emits, pair of parts by pair of parts: a
text part reaching the size threshold is flushed on its own (its separator
then becomes a chunk of its own); otherwise text and separator merge into
one chunk.  A final text part is flushed iff it has non-whitespace
content. -/
def emit (n : Nat) : List (List Char) → List (List Char)
  | [] => []
  | [t] => if stripL t = [] then [] else [stripL t]
  | t :: s :: rest =>
      (if n ≤ t.length ∧ stripL t ≠ [] then [stripL t, stripL s]
       else [stripL (t ++ s)]) ++ emit n rest

theorem hasTerm_eq_false_of_isTxt {t : List Char} (h : IsTxt t) :
    hasTerm t = false := by
  simp only [hasTerm, List.any_eq_false]
  intro c hc
  simp [h c hc]

theorem hasTerm_of_isSep {s : List Char} (h : IsSep s) : hasTerm s = true := by
  obtain ⟨ts, ws, rfl, hts, hterm, hws⟩ := h
  obtain ⟨c, hc⟩ := List.exists_mem_of_ne_nil ts hts
  simp only [hasTerm, List.any_eq_true]
  exact ⟨c, List.mem_append.mpr (Or.inl hc), hterm c hc⟩

theorem hasTerm_append_right {s : List Char} (y : List Char)
    (h : hasTerm s = true) : hasTerm (y ++ s) = true := by
  simp only [hasTerm, List.any_eq_true] at h ⊢
  obtain ⟨c, hc, hterm⟩ := h
  exact ⟨c, List.mem_append.mpr (Or.inr hc), hterm⟩

theorem stripL_nil : stripL [] = [] := rfl

theorem withTrailing_append (K : List (List Char))
    (st : List (List Char) × List Char) :
    withTrailing (K ++ st.1, st.2) = K ++ withTrailing st := by
  unfold withTrailing
  by_cases h : stripL st.2 ≠ []
  · rw [if_pos h, if_pos h]; simp [List.append_assoc]
  · rw [if_neg h, if_neg h]

/-- The loop (with its trailing-buffer append) computes `emit` on a
well-formed alternation of parts. -/
theorem withTrailing_foldl_emit (n : Nat) :
    ∀ parts : List (List Char), PartsOK parts →
      withTrailing (parts.foldl (splitStep n) ([], [])) = emit n parts := by
  intro parts hok
  induction hok with
  | single t htxt =>
    have hft : hasTerm t = false := hasTerm_eq_false_of_isTxt htxt
    rw [List.foldl_cons, List.foldl_nil]
    simp only [splitStep, List.nil_append]
    by_cases hst : stripL t = []
    · by_cases hlen : n ≤ t.length
      · rw [if_pos (Or.inr hlen), if_neg (by simpa using hst)]
        simp [withTrailing, emit, hst, stripL_nil]
      · rw [if_neg (by
          rintro (⟨hne, hT⟩ | hle)
          · rw [hft] at hT; exact Bool.false_ne_true hT
          · exact hlen hle)]
        simp [withTrailing, emit, hst, stripL_nil]
    · by_cases hlen : n ≤ t.length
      · rw [if_pos (Or.inr hlen), if_pos hst]
        simp [withTrailing, emit, hst, stripL_nil]
      · rw [if_neg (by
          rintro (⟨hne, hT⟩ | hle)
          · rw [hft] at hT; exact Bool.false_ne_true hT
          · exact hlen hle)]
        simp [withTrailing, emit, hst, stripL_nil]
  | pair t s rest htxt hsep hokrest ih =>
    have hft : hasTerm t = false := hasTerm_eq_false_of_isTxt htxt
    have hsT : hasTerm s = true := hasTerm_of_isSep hsep
    have hsS : stripL s ≠ [] := stripL_ne_nil_of_hasTerm hsT
    rw [List.foldl_cons, List.foldl_cons]
    by_cases hA : n ≤ t.length ∧ stripL t ≠ []
    · have h1 : splitStep n ([], []) t = ([stripL t], []) := by
        simp only [splitStep, List.nil_append]
        rw [if_pos (Or.inr hA.1), if_pos hA.2]
      have h2 : splitStep n ([stripL t], []) s = ([stripL t, stripL s], []) := by
        simp only [splitStep, List.nil_append]
        rw [if_pos (Or.inl ⟨hsS, hsT⟩), if_pos hsS]
        simp
      rw [h1, h2, foldl_splitStep_frame n rest ([stripL t, stripL s], []),
        withTrailing_append, ih]
      show [stripL t, stripL s] ++ emit n rest = emit n (t :: s :: rest)
      rw [show emit n (t :: s :: rest)
          = (if n ≤ t.length ∧ stripL t ≠ [] then [stripL t, stripL s]
             else [stripL (t ++ s)]) ++ emit n rest from rfl,
        if_pos hA]
    · have h1 : splitStep n ([], []) t = ([], t) := by
        simp only [splitStep, List.nil_append]
        by_cases hlen : n ≤ t.length
        · have hst : ¬ stripL t ≠ [] := fun hne => hA ⟨hlen, hne⟩
          rw [if_pos (Or.inr hlen), if_neg hst]
        · rw [if_neg (by
            rintro (⟨hne, hT⟩ | hle)
            · rw [hft] at hT; exact Bool.false_ne_true hT
            · exact hlen hle)]
      have h2 : splitStep n ([], t) s = ([stripL (t ++ s)], []) := by
        simp only [splitStep, List.nil_append]
        rw [if_pos (Or.inl ⟨hsS, hsT⟩),
          if_pos (stripL_ne_nil_of_hasTerm (hasTerm_append_right t hsT))]
      rw [h1, h2, foldl_splitStep_frame n rest ([stripL (t ++ s)], []),
        withTrailing_append, ih]
      show [stripL (t ++ s)] ++ emit n rest = emit n (t :: s :: rest)
      rw [show emit n (t :: s :: rest)
          = (if n ≤ t.length ∧ stripL t ≠ [] then [stripL t, stripL s]
             else [stripL (t ++ s)]) ++ emit n rest from rfl,
        if_neg hA]

theorem splitCore_noWs (text : List Char) (n : Nat) :
    noWs (splitCore text n).1.flatten ++ noWs (splitCore text n).2
      = noWs text := by
  have h := foldl_splitStep_noWs n (reSplit text) ([], [])
  simpa [splitCore, noWs_nil, reSplit_flatten] using h

/-- As soon as the input has any non-whitespace content, the fallback
branch is dead and `split` is exactly `emit` over the regex parts. -/
theorem split_eq_emit (text : List Char) (n : Nat) (h : stripL text ≠ []) :
    split text n = emit n (reSplit text) := by
  have hfe : withTrailing (splitCore text n) = emit n (reSplit text) := by
    have := withTrailing_foldl_emit n (reSplit text) (partsOK_reSplit text)
    simpa [splitCore] using this
  unfold split
  rw [if_neg ?_]
  · exact hfe
  · intro hfb
    have hW := withTrailing_noWs (splitCore text n)
    rw [hfb] at hW
    have hnil : noWs text = [] := by
      rw [← splitCore_noWs text n, ← hW]
      rfl
    exact h (stripL_eq_nil_iff.mpr hnil)

theorem partsOK_ne_nil {parts : List (List Char)} (h : PartsOK parts) :
    parts ≠ [] := by
  cases h <;> simp

/-- Membership characterization of the loop output: every chunk either ends
in a sentence terminator, or is the stripped form of a whole terminator-free
text part that reached the size threshold or is the final part. -/
theorem emit_mem (n : Nat) :
    ∀ parts : List (List Char), PartsOK parts → ∀ c ∈ emit n parts,
      (∃ ch, c.getLast? = some ch ∧ isTerm ch = true) ∨
      ∃ t, t ∈ parts ∧ hasTerm t = false ∧ c = stripL t ∧
        (n ≤ t.length ∨ parts.getLast? = some t) := by
  intro parts hok
  induction hok with
  | single t htxt =>
    intro c hc
    rw [show emit n [t] = if stripL t = [] then [] else [stripL t] from rfl] at hc
    by_cases hst : stripL t = []
    · rw [if_pos hst] at hc
      exact absurd hc (List.not_mem_nil c)
    · rw [if_neg hst] at hc
      right
      exact ⟨t, List.mem_singleton.mpr rfl, hasTerm_eq_false_of_isTxt htxt,
        List.mem_singleton.mp hc, Or.inr (by simp)⟩
  | pair t s rest htxt hsep hokrest ih =>
    intro c hc
    rw [show emit n (t :: s :: rest)
        = (if n ≤ t.length ∧ stripL t ≠ [] then [stripL t, stripL s]
           else [stripL (t ++ s)]) ++ emit n rest from rfl] at hc
    rcases List.mem_append.mp hc with hc | hc
    · by_cases hA : n ≤ t.length ∧ stripL t ≠ []
      · rw [if_pos hA] at hc
        rcases List.mem_cons.mp hc with rfl | hc
        · right
          exact ⟨t, List.mem_cons_self _ _, hasTerm_eq_false_of_isTxt htxt,
            rfl, Or.inl hA.1⟩
        · rw [List.mem_singleton.mp hc]
          left
          have := strip_append_sep_last hsep []
          rwa [List.nil_append] at this
      · rw [if_neg hA] at hc
        rw [List.mem_singleton.mp hc]
        left
        exact strip_append_sep_last hsep t
    · rcases ih c hc with h | ⟨u, humem, huf, hceq, hor⟩
      · left; exact h
      · right
        refine ⟨u, List.mem_cons_of_mem _ (List.mem_cons_of_mem _ humem),
          huf, hceq, ?_⟩
        rcases hor with h | h
        · exact Or.inl h
        · right
          rw [getLast?_cons_of_ne (List.cons_ne_nil _ _),
            getLast?_cons_of_ne (partsOK_ne_nil hokrest)]
          exact h

/-! ## Inputs without sentence terminators -/

theorem reSplitGo_txt_no_term (cs : List Char) :
    ∀ acc : List Char, (∀ c ∈ cs, isTerm c = false) →
      reSplitGo cs ScanMode.txt acc = [acc.reverse ++ cs] := by
  induction cs with
  | nil => intro acc h; simp [reSplitGo]
  | cons c cs ih =>
    intro acc h
    have hc : isTerm c = false := h c (List.mem_cons_self _ _)
    have hgo : reSplitGo (c :: cs) ScanMode.txt acc
        = reSplitGo cs ScanMode.txt (c :: acc) := by
      simp [reSplitGo, hc]
    rw [hgo, ih (c :: acc) fun x hx => h x (List.mem_cons_of_mem _ hx)]
    simp

theorem reSplit_of_no_term {text : List Char} (h : hasTerm text = false) :
    reSplit text = [text] := by
  have hall : ∀ c ∈ text, isTerm c = false := by
    intro c hc
    have := List.any_eq_false.mp h c hc
    simpa using this
  have := reSplitGo_txt_no_term text [] hall
  simpa [reSplit] using this

/-! ## Driver frame lemmas -/

theorem driveStep_fst {α : Type} (synth : List Char → Option α)
    (st : List α × Nat) (c : List Char) :
    (driveStep synth st c).1 = st.1 ++ (driveStep synth ([], 0) c).1 := by
  simp only [driveStep]
  by_cases h : stripL c = []
  · rw [if_pos h, if_pos h]; simp
  · rw [if_neg h, if_neg h]
    cases synth c <;> simp

theorem driveStep_snd {α : Type} (synth : List Char → Option α)
    (st : List α × Nat) (c : List Char) :
    (driveStep synth st c).2 = st.2 + (driveStep synth ([], 0) c).2 := by
  simp only [driveStep]
  by_cases h : stripL c = []
  · rw [if_pos h, if_pos h]; simp
  · rw [if_neg h, if_neg h]
    cases synth c <;> simp

theorem foldl_driveStep_frame {α : Type} (synth : List Char → Option α)
    (chunks : List (List Char)) :
    ∀ st : List α × Nat,
      chunks.foldl (driveStep synth) st =
        (st.1 ++ (chunks.foldl (driveStep synth) ([], 0)).1,
         st.2 + (chunks.foldl (driveStep synth) ([], 0)).2) := by
  induction chunks with
  | nil => intro st; simp
  | cons c chunks ih =>
    intro st
    rw [List.foldl_cons, List.foldl_cons, ih (driveStep synth st c),
      ih (driveStep synth ([], 0) c), driveStep_fst, driveStep_snd]
    simp [List.append_assoc, Nat.add_assoc]

/-! ## Closed forms for degenerate inputs -/

theorem split_nil (n : Nat) (h : 0 < n) : split [] n = [[]] := by
  have hn0 : ¬ n = 0 := Nat.pos_iff_ne_zero.mp h
  have hcore : splitCore [] n = ([], []) := by
    show splitStep n ([], []) [] = ([], [])
    simp [splitStep, stripL_nil, hasTerm, Nat.le_zero, hn0]
  unfold split
  rw [hcore]
  simp [withTrailing, stripL_nil]

/-- Any input without sentence terminators but with non-whitespace content
becomes the single chunk `text.strip()`, for every chunk size. -/
theorem split_no_term {text : List Char} (n : Nat)
    (hterm : hasTerm text = false) (hstrip : stripL text ≠ []) :
    split text n = [stripL text] := by
  have hparts : reSplit text = [text] := reSplit_of_no_term hterm
  have hwt : withTrailing (splitCore text n) = [stripL text] := by
    unfold splitCore
    rw [hparts, List.foldl_cons, List.foldl_nil]
    by_cases hle : n ≤ text.length
    · have h1 : splitStep n ([], []) text = ([stripL text], []) := by
        simp only [splitStep, List.nil_append]
        rw [if_pos (Or.inr hle), if_pos hstrip]
      rw [h1]
      simp [withTrailing, stripL_nil]
    · have hnc : ¬ ((stripL text ≠ [] ∧ hasTerm text = true) ∨
          n ≤ ([] ++ text).length) := by
        rintro (⟨_, hT⟩ | hle2)
        · rw [hterm] at hT; exact Bool.false_ne_true hT
        · rw [List.nil_append] at hle2; exact hle hle2
      have h1 : splitStep n ([], []) text = ([], text) := by
        simp only [splitStep]
        rw [if_neg hnc]
        simp
      rw [h1]
      simp [withTrailing, hstrip]
  unfold split
  rw [hwt]
  simp

/-! ## The driver under total synthesis failure -/

theorem drive_none_fst {α : Type} (chunks : List (List Char)) :
    (drive (fun _ => (none : Option α)) chunks).1 = [] := by
  induction chunks with
  | nil => rfl
  | cons c chunks ih =>
    unfold drive at ih ⊢
    rw [List.foldl_cons, foldl_driveStep_frame]
    have hstep : (driveStep (fun _ => (none : Option α)) ([], 0) c).1 = [] := by
      simp only [driveStep]
      by_cases h : stripL c = []
      · rw [if_pos h]
      · rw [if_neg h]
    show (driveStep (fun _ => (none : Option α)) ([], 0) c).1 ++
        (chunks.foldl (driveStep fun _ => none) ([], 0)).1 = []
    rw [hstep, List.nil_append]
    exact ih

theorem drive_none_snd_pos {α : Type} (chunks : List (List Char))
    (h : ∃ c ∈ chunks, stripL c ≠ []) :
    1 ≤ (drive (fun _ => (none : Option α)) chunks).2 := by
  induction chunks with
  | nil =>
    obtain ⟨c, hc, _⟩ := h
    exact absurd hc (List.not_mem_nil c)
  | cons c chunks ih =>
    unfold drive
    rw [List.foldl_cons, foldl_driveStep_frame]
    show 1 ≤ (driveStep (fun _ => (none : Option α)) ([], 0) c).2 +
        (chunks.foldl (driveStep fun _ => none) ([], 0)).2
    obtain ⟨d, hd, hds⟩ := h
    rcases List.mem_cons.mp hd with rfl | hd
    · have hstep : (driveStep (fun _ => (none : Option α)) ([], 0) d).2 = 1 := by
        simp only [driveStep]
        rw [if_neg hds]
      rw [hstep]
      exact Nat.le_add_right 1 _
    · have htail := ih ⟨d, hd, hds⟩
      unfold drive at htail
      exact le_trans htail (Nat.le_add_left _ _)

-- Sanity checks of the embedding on concrete inputs.
example : reSplit (String.toList "Hello. How are you? I am fine.") =
    [String.toList "Hello", String.toList ". ", String.toList "How are you",
     String.toList "? ", String.toList "I am fine", String.toList ".", []] := by
  decide

example : split (String.toList "Hello. How are you? I am fine.") 10 =
    [String.toList "Hello.", String.toList "How are you",
     String.toList "?", String.toList "I am fine."] := by
  decide

example : split [] 10 = [[]] := by decide

example : split [' '] 10 = [[' ']] := by decide

example : split (String.toList "Hi") 5 = [String.toList "Hi"] := by decide

/-! ## Claims -/

/-- C1, counterexample: on `"Hello. How are you? I am fine."` with
`target_size = 10` the splitter does NOT return
`["Hello.", "How are you?", "I am fine."]`: the size trigger fires on the
text part `"How are you"` (11 characters) before its `"? "` separator part
is consumed, so the claimed output is not produced. -/
theorem c1_counterexample :
    split (String.toList "Hello. How are you? I am fine.") 10 ≠
      [String.toList "Hello.", String.toList "How are you?",
       String.toList "I am fine."] := by
  decide

/-- C1, amended: `split("Hello. How are you? I am fine.", 10)` returns
`["Hello.", "How are you", "?", "I am fine."]`; when the buffer reaches the
size threshold on a sentence's text before its terminator part has been
consumed, the size trigger finalizes the chunk at once — sentence-boundary
completion does not take priority, and the terminator run is emitted as a
separate chunk. -/
theorem c1_amended :
    split (String.toList "Hello. How are you? I am fine.") 10 =
      [String.toList "Hello.", String.toList "How are you",
       String.toList "?", String.toList "I am fine."] := by
  decide

/-- C2: for non-empty text and positive target size, `split` returns a
non-empty sequence whose in-order concatenation reconstructs the input
modulo whitespace normalization — no non-whitespace character is dropped or
duplicated. -/
theorem c2_reconstruction (text : List Char) (n : Nat)
    (h1 : text ≠ []) (h2 : 0 < n) :
    split text n ≠ [] ∧ noWs (split text n).flatten = noWs text :=
  ⟨split_ne_nil text n, split_noWs text n⟩

/-- C2, witness at `"Hello. How are you? I am fine."`, `target_size = 10`. -/
theorem c2_witness :
    split (String.toList "Hello. How are you? I am fine.") 10 ≠ [] ∧
      noWs (split (String.toList "Hello. How are you? I am fine.") 10).flatten
        = noWs (String.toList "Hello. How are you? I am fine.") :=
  c2_reconstruction (String.toList "Hello. How are you? I am fine.") 10
    (by decide) (by decide)

/-- C3: for text containing a sentence terminator and positive target size,
every returned chunk either ends at a sentence boundary (its last character
is a terminator) or is the stripped form of a whole terminator-free sentence
text that had already reached `target_size` characters — or is the trailing
sentence fragment (the last regex part, which has no end).  Hence no chunk
breaks inside a sentence that ends before `target_size` characters. -/
theorem c3_boundary (text : List Char) (n : Nat)
    (h1 : 0 < n) (h2 : hasTerm text = true) :
    ∀ c ∈ split text n,
      (∃ ch, c.getLast? = some ch ∧ isTerm ch = true) ∨
      ∃ t, t ∈ reSplit text ∧ hasTerm t = false ∧ c = stripL t ∧
        (n ≤ t.length ∨ (reSplit text).getLast? = some t) := by
  intro c hc
  have hs : stripL text ≠ [] := stripL_ne_nil_of_hasTerm h2
  rw [split_eq_emit text n hs] at hc
  exact emit_mem n (reSplit text) (partsOK_reSplit text) c hc

/-- C3, witness: the chunk `"How are you"` of the example split. -/
theorem c3_witness :
    (∃ ch, (String.toList "How are you").getLast? = some ch ∧
      isTerm ch = true) ∨
    ∃ t, t ∈ reSplit (String.toList "Hello. How are you? I am fine.") ∧
      hasTerm t = false ∧ String.toList "How are you" = stripL t ∧
      (10 ≤ t.length ∨
        (reSplit (String.toList "Hello. How are you? I am fine.")).getLast?
          = some t) :=
  c3_boundary (String.toList "Hello. How are you? I am fine.") 10
    (by decide) (by decide) (String.toList "How are you") (by decide)

/-- C4: if synthesis fails on a chunk, the driver logs the failure, yields
no audio for that chunk, and still processes the remaining chunks in order;
in particular on a 3-chunk sequence where exactly chunk 2 fails the driver
yields the audio of chunks 1 and 3 only, in that order, with exactly one
logged failure event. -/
theorem c4_failure_policy {α : Type} (synth : List Char → Option α)
    (pre post : List (List Char)) (c c1 c2 c3 : List Char) (a1 a3 : α)
    (hc : stripL c ≠ []) (hsc : synth c = none)
    (h1 : stripL c1 ≠ []) (h2 : stripL c2 ≠ []) (h3 : stripL c3 ≠ [])
    (hs1 : synth c1 = some a1) (hs2 : synth c2 = none)
    (hs3 : synth c3 = some a3) :
    drive synth [c1, c2, c3] = ([a1, a3], 1) ∧
    (drive synth (pre ++ c :: post)).1 = (drive synth (pre ++ post)).1 ∧
    (drive synth (pre ++ c :: post)).2 = (drive synth (pre ++ post)).2 + 1 := by
  have hstep : ∀ X : List α × Nat, driveStep synth X c = (X.1, X.2 + 1) := by
    intro X
    simp only [driveStep]
    rw [if_neg hc, hsc]
  refine ⟨?_, ?_, ?_⟩
  · show List.foldl (driveStep synth) ([], 0) [c1, c2, c3] = ([a1, a3], 1)
    have s1 : driveStep synth ([], 0) c1 = ([a1], 0) := by
      simp only [driveStep]
      rw [if_neg h1, hs1]
      simp
    have s2 : driveStep synth ([a1], 0) c2 = ([a1], 1) := by
      simp only [driveStep]
      rw [if_neg h2, hs2]
    have s3 : driveStep synth ([a1], 1) c3 = ([a1, a3], 1) := by
      simp only [driveStep]
      rw [if_neg h3, hs3]
      simp
    rw [List.foldl_cons, s1, List.foldl_cons, s2, List.foldl_cons, s3,
      List.foldl_nil]
  · unfold drive
    rw [List.foldl_append, List.foldl_cons, List.foldl_append, hstep,
      foldl_driveStep_frame synth post]
    rw [foldl_driveStep_frame synth post
      (List.foldl (driveStep synth) ([], 0) pre)]
  · unfold drive
    rw [List.foldl_append, List.foldl_cons, List.foldl_append, hstep,
      foldl_driveStep_frame synth post]
    rw [foldl_driveStep_frame synth post
      (List.foldl (driveStep synth) ([], 0) pre)]
    show (List.foldl (driveStep synth) ([], 0) pre).2 + 1 +
        (post.foldl (driveStep synth) ([], 0)).2 =
      (List.foldl (driveStep synth) ([], 0) pre).2 +
        (post.foldl (driveStep synth) ([], 0)).2 + 1
    omega

/-- C4, witness: a concrete synthesis function failing exactly on `"b"`. -/
theorem c4_witness :
    drive (fun c : List Char => if c = ['b'] then none else some c)
        [['a'], ['b'], ['c']] = ([['a'], ['c']], 1) ∧
    (drive (fun c : List Char => if c = ['b'] then none else some c)
        ([] ++ ['b'] :: [])).1 =
      (drive (fun c : List Char => if c = ['b'] then none else some c)
        ([] ++ [])).1 ∧
    (drive (fun c : List Char => if c = ['b'] then none else some c)
        ([] ++ ['b'] :: [])).2 =
      (drive (fun c : List Char => if c = ['b'] then none else some c)
        ([] ++ [])).2 + 1 :=
  c4_failure_policy (fun c : List Char => if c = ['b'] then none else some c)
    [] [] ['b'] ['a'] ['b'] ['c'] ['a'] ['c']
    (by decide) (by decide) (by decide) (by decide) (by decide)
    (by decide) (by decide) (by decide)

/-- C5, counterexample: the whitespace-only input `" "` is non-empty, yet
`split(" ", 10)` returns the whitespace-only chunk `" "` (through the
whole-text fallback), so the result is not free of whitespace-only
strings. -/
theorem c5_counterexample :
    ([' '] : List Char) ≠ [] ∧
      ¬ (∀ c ∈ split [' '] 10, stripL c ≠ []) := by
  decide

/-- C5, amended: for input with at least one NON-WHITESPACE character and
positive target size, the result is non-empty, contains no empty and no
whitespace-only chunk, and concatenates in order to the input modulo
whitespace (fixing the order of appearance); for whitespace-only non-empty
input the fallback returns the raw input itself as the single
(whitespace-only) chunk. -/
theorem c5_amended (text : List Char) (n : Nat)
    (h1 : stripL text ≠ []) (h2 : 0 < n) :
    split text n ≠ [] ∧ (∀ c ∈ split text n, stripL c ≠ []) ∧
      noWs (split text n).flatten = noWs text :=
  ⟨split_ne_nil text n, split_mem_strip text n h1, split_noWs text n⟩

/-- C5, witness at `"Hello. How are you? I am fine."`, `target_size = 10`,
with the chunk-level property instantiated at the chunk `"?"`. -/
theorem c5_witness :
    split (String.toList "Hello. How are you? I am fine.") 10 ≠ [] ∧
      stripL (String.toList "?") ≠ [] ∧
      noWs (split (String.toList "Hello. How are you? I am fine.") 10).flatten
        = noWs (String.toList "Hello. How are you? I am fine.") :=
  ⟨(c5_amended (String.toList "Hello. How are you? I am fine.") 10
      (by decide) (by decide)).1,
   (c5_amended (String.toList "Hello. How are you? I am fine.") 10
      (by decide) (by decide)).2.1 (String.toList "?") (by decide),
   (c5_amended (String.toList "Hello. How are you? I am fine.") 10
      (by decide) (by decide)).2.2⟩

/-- C6, counterexample: the whitespace-only input `" "` has no terminator
and length `1 ≤ 5`, yet `split(" ", 5)` returns `[" "]`, not the trimmed
input `[""]` — the fallback returns the raw, untrimmed text. -/
theorem c6_counterexample :
    hasTerm [' '] = false ∧ ([' '] : List Char).length ≤ 5 ∧
      split [' '] 5 ≠ [stripL [' ']] := by
  decide

/-- C6, amended: for input with no sentence terminator, `target_size ≥`
the input length, and at least one non-whitespace character, `split`
returns exactly one chunk equal to the whitespace-trimmed input. -/
theorem c6_amended (text : List Char) (n : Nat)
    (h1 : hasTerm text = false) (h2 : text.length ≤ n)
    (h3 : stripL text ≠ []) :
    split text n = [stripL text] :=
  split_no_term n h1 h3

/-- C6, witness at `"Hi"`, `target_size = 5`. -/
theorem c6_witness :
    split (String.toList "Hi") 5 = [stripL (String.toList "Hi")] :=
  c6_amended (String.toList "Hi") 5 (by decide) (by decide) (by decide)

/-- C7: on the empty input and any positive target size, `split` returns
the single-element sequence containing the empty string (via the
whole-text fallback). -/
theorem c7_empty (n : Nat) (h : 0 < n) : split [] n = [[]] :=
  split_nil n h

/-- C7, witness at `target_size = 10`. -/
theorem c7_witness : split [] 10 = [[]] :=
  c7_empty 10 (by decide)

/-- C8, counterexample: total synthesis failure on `"Hi"` and successful
synthesis of the empty text both deliver the empty audio sequence to the
caller — the caller-visible outputs are identical, so there is no
empty/error signal distinguishing them in what is emitted. -/
theorem c8_counterexample :
    (drive (fun c : List Char => some c) (split ([] : List Char) 10)).1 = [] ∧
    (drive (fun _ : List Char => (none : Option (List Char)))
        (split (String.toList "Hi") 10)).1 = [] ∧
    (drive (fun c : List Char => some c) (split ([] : List Char) 10)).1 =
      (drive (fun _ : List Char => (none : Option (List Char)))
        (split (String.toList "Hi") 10)).1 := by
  decide

/-- C8, amended: the two empty results differ only in the logged failure
count: empty text produces no synthesis call and no failure log (the lone
empty chunk is skipped by the `strip()` guard), while total failure on
non-whitespace text yields nothing but logs at least one failure event;
nothing distinguishing is emitted to the caller. -/
theorem c8_amended {α : Type} (synth : List Char → Option α)
    (text : List Char) (n : Nat) (h1 : 0 < n) (h2 : stripL text ≠ []) :
    drive synth (split [] n) = ([], 0) ∧
    (drive (fun _ => (none : Option α)) (split text n)).1 = [] ∧
    1 ≤ (drive (fun _ => (none : Option α)) (split text n)).2 := by
  refine ⟨?_, drive_none_fst _, ?_⟩
  · rw [split_nil n h1]
    show driveStep synth ([], 0) [] = ([], 0)
    simp [driveStep, stripL_nil]
  · apply drive_none_snd_pos
    rcases hne : split text n with _ | ⟨c, rest⟩
    · exact absurd hne (split_ne_nil text n)
    · refine ⟨c, List.mem_cons_self _ _, ?_⟩
      exact split_mem_strip text n h2 c
        (by rw [hne]; exact List.mem_cons_self _ _)

/-- C8, witness at `text = "Hi"`, `target_size = 10`. -/
theorem c8_witness :
    drive (fun c : List Char => some c) (split [] 10) = ([], 0) ∧
    (drive (fun _ : List Char => (none : Option (List Char)))
        (split (String.toList "Hi") 10)).1 = [] ∧
    1 ≤ (drive (fun _ : List Char => (none : Option (List Char)))
        (split (String.toList "Hi") 10)).2 :=
  c8_amended (fun c : List Char => some c) (String.toList "Hi") 10
    (by decide) (by decide)

/-- C9: the chunk splitter is a pure, deterministic function of its two
arguments — two calls on identical inputs produce identical output
sequences.  The embedding makes purity structural: `split` reads nothing
but `text` and `chunkSize` (the source loop uses only `re`, `text` and
`chunk_size`, no global state). -/
theorem c9_deterministic (t1 t2 : List Char) (n1 n2 : Nat)
    (h1 : t1 = t2) (h2 : n1 = n2) : split t1 n1 = split t2 n2 := by
  rw [h1, h2]

/-- C9, witness at `"Hi. Yo"`, `target_size = 4`. -/
theorem c9_witness :
    split (String.toList "Hi. Yo") 4 = split (String.toList "Hi. Yo") 4 :=
  c9_deterministic (String.toList "Hi. Yo") (String.toList "Hi. Yo") 4 4
    rfl rfl

/-- C10: the splitter can emit punctuation-only chunks: on
`"Hello. How are you? I am fine."` with `target_size = 10`, the sentence
text `"How are you"` (11 ≥ 10 characters, no terminator) is finalized
without its terminator, and the following `"?"` is emitted as a separate
chunk consisting solely of sentence-terminal punctuation. -/
theorem c10_punctuation_chunk :
    split (String.toList "Hello. How are you? I am fine.") 10 =
      [String.toList "Hello.", String.toList "How are you",
       String.toList "?", String.toList "I am fine."] ∧
    (String.toList "?").all isTerm = true ∧
    hasTerm (String.toList "How are you") = false ∧
    10 ≤ (String.toList "How are you").length := by
  decide

end EzraTTS
